import Mathlib

set_option maxHeartbeats 1000000

/-!
Shallow embedding of the packet transmission simulator of
`network_topology_visualizer.py`: topology snapshot, path resolution,
the unicast hop-by-hop state machine (`_animate_smooth`), the broadcast
flood state machine (`_animate_broadcast` / `_animate_broadcast_segment`),
cancellation (`stop_animation`) and run start (`start_animation`).

The GUI-only parts of each callback (frame-by-frame interpolation between
two node positions, the packet trail, `redraw`, log text boxes, message
boxes) carry no simulation state: between two loss-trial boundaries the
code only increments `frame` and redraws, so the embedding steps from one
decision point (edge boundary / node arrival) to the next.  The Python
loss trial `random.random() < self.packet_loss_rate` is embedded as the
comparison `u k < rate`, where `u : Nat -> Rat` is the stream of uniform
draws (each in `[0,1)`) and `k` counts the draws consumed so far.
-/

/-- A topology snapshot: the node list of `self.G` (in insertion order)
and its undirected edge list.  Node identifiers are strings (`N1`, ...). -/
structure Graph where
  nodes : List String
  edges : List (String × String)

/-- Adjacency in the undirected graph `self.G`: an edge stored in either
orientation connects `u` and `v` (networkx `Graph` edges are symmetric). -/
def Graph.adj (g : Graph) (u v : String) : Bool :=
  g.edges.any (fun e => (e.1 == u && e.2 == v) || (e.1 == v && e.2 == u))

/-- `self.G.neighbors(current)`: the nodes adjacent to `u`, enumerated in
the (deterministic) node-insertion order of the snapshot. -/
def Graph.neighbors (g : Graph) (u : String) : List String :=
  g.nodes.filter (fun v => g.adj u v)

/-- The snapshot invariant of the spec data model: no duplicate node
identifiers, every edge endpoint present, no self loops. -/
def Graph.wellformed (g : Graph) : Prop :=
  g.nodes.Nodup ∧ ∀ e ∈ g.edges, e.1 ∈ g.nodes ∧ e.2 ∈ g.nodes ∧ e.1 ≠ e.2

/-- `hasPathLen g a b n`: there is a walk of exactly `n` hops from `a`
to `b` in the snapshot.  The spec-side notion of hop distance. -/
inductive hasPathLen (g : Graph) : String → String → Nat → Prop
| refl (u : String) : hasPathLen g u u 0
| step {u w v : String} {n : Nat} :
    g.adj u w = true → hasPathLen g w v n → hasPathLen g u v (n + 1)

/-- `shortestDist g s v d`: `d` is the true BFS shortest-hop-distance
from `s` to `v`: some walk of length `d` exists and no shorter one does. -/
def shortestDist (g : Graph) (s v : String) (d : Nat) : Prop :=
  hasPathLen g s v d ∧ ∀ j, j < d → ¬ hasPathLen g s v j

/-- One BFS expansion: the nodes not yet seen that are adjacent to some
frontier node, in node-insertion order. -/
def nextLayer (g : Graph) (seen frontier : List String) : List String :=
  g.nodes.filter (fun v => decide (v ∉ seen) && frontier.any (fun u => g.adj u v))

/-- One BFS round on a `(seen, frontier)` pair. -/
def bfsStep (g : Graph) (p : List String × List String) : List String × List String :=
  (p.1 ++ nextLayer g p.1 p.2, nextLayer g p.1 p.2)

/-- `r` BFS rounds from the source. -/
def bfsIter (g : Graph) (src : String) : Nat → List String × List String
| 0 => ([src], [src])
| r + 1 => bfsStep g (bfsIter g src r)

/-- All nodes discovered within `r` BFS rounds from `src`. -/
def seenAt (g : Graph) (src : String) (r : Nat) : List String :=
  (bfsIter g src r).1

/-- The nodes first discovered at BFS round `r` (= at hop distance `r`). -/
def layerAt (g : Graph) (src : String) (r : Nat) : List String :=
  (bfsIter g src r).2

/-- The BFS level of `dst`, searched among the first `|nodes| + 1` layers
(enough: hop distances are below the node count). -/
def findLevel (g : Graph) (src dst : String) : Option Nat :=
  (List.range (g.nodes.length + 1)).find? (fun r => decide (dst ∈ layerAt g src r))

/-- Reconstruct a shortest path backwards: a node of layer `r + 1` is
adjacent to some node of layer `r`; pick the first such parent. -/
def backPath (g : Graph) (src : String) : Nat → String → List String
| 0, v => [v]
| r + 1, v =>
  match (layerAt g src r).find? (fun u => g.adj u v) with
  | some u => backPath g src r u ++ [v]
  | none => [v]

/-- Modelled from the spec: the Path Resolver (`nx.shortest_path(self.G,
source=src, target=dst)` at the `start_unicast_animation` call site) is
networkx library code, not part of this repository.  Per the spec it
returns a minimum-hop-count path from source to destination computed by
unweighted breadth-first search, with a deterministic tie-break, and
reports no-path (`nx.NetworkXNoPath`) as a distinct outcome, here `none`. -/
def shortest_path (g : Graph) (src dst : String) : Option (List String) :=
  (findLevel g src dst).map (fun r => backPath g src r dst)

/-- The IP table `self.node_ips` with Python's `self.node_ips.get(n, '')`
lookup: unassigned nodes read as the empty string. -/
def getIp (ips : List (String × String)) (n : String) : String :=
  (ips.lookup n).getD ""

/-- The acceptance test of `_animate_broadcast_segment`:
`if current_ip and target_ip and current_ip == target_ip` — both strings
non-empty (Python truthiness) and equal. -/
def ipMatch (ips : List (String × String)) (cur target : String) : Bool :=
  !(getIp ips cur == "") && !(getIp ips target == "") && (getIp ips cur == getIp ips target)

/-- Python `set.add` on an insertion-ordered list representation. -/
def addSet (l : List String) (x : String) : List String :=
  if x ∈ l then l else l ++ [x]

/-! ## Unicast simulator (`_animate_smooth`) -/

/-- The decision-relevant unicast state: the `animating` flag, the
resolved path, the current edge index, and the number of loss draws
consumed so far. -/
structure UniState where
  animating : Bool
  path : List String
  edgeIdx : Nat
  k : Nat
deriving DecidableEq

/-- Terminal unicast verdicts with the metadata the code reports:
delivery, loss at the destination, or loss at an intermediate hop
(`Loss occurred at: {current_node}`, `Hop number: {edge_idx} of
{len(path)-1}`). -/
inductive UTerm
| delivered (node : String)
| lostAtDest (node : String)
| lostAtHop (node : String) (hop total : Nat)
deriving DecidableEq

/-- The per-edge progress event (the `Hop {edge_idx+1}/{len(path)-1}:
{start_node} -> {end_node}` log line emitted at frame 0 of each edge). -/
inductive UEvent
| hopProgress (hop : Nat) (a b : String)
deriving DecidableEq

/-- Outcome of one `_animate_smooth` callback at a decision point:
cancelled (entry check `if not self.animating: return` — nothing
emitted), terminal, or advance to the next edge emitting progress. -/
inductive UOut
| halted
| done (t : UTerm)
| next (ev : UEvent) (s : UniState)
deriving DecidableEq

/-- One decision step of `_animate_smooth`: the cancellation check, then
`edge_idx >= len(path) - 1` (destination reached: one final loss trial),
then the hop-entry loss trial `frame == 0 and edge_idx > 0`, else advance
to the next edge.  A loss draw is consumed exactly when a trial is made. -/
def animate_smooth_step (rate : ℚ) (u : Nat → ℚ) (s : UniState) : UOut :=
  if s.animating = false then .halted
  else if s.path.length ≤ s.edgeIdx + 1 then
    if u s.k < rate then .done (.lostAtDest (s.path.getLastD ""))
    else .done (.delivered (s.path.getLastD ""))
  else if 0 < s.edgeIdx ∧ u s.k < rate then
    .done (.lostAtHop (s.path.getD s.edgeIdx "") s.edgeIdx (s.path.length - 1))
  else
    .next (.hopProgress (s.edgeIdx + 1) (s.path.getD s.edgeIdx "") (s.path.getD (s.edgeIdx + 1) ""))
      { s with edgeIdx := s.edgeIdx + 1, k := s.k + (if 0 < s.edgeIdx then 1 else 0) }

/-- Drive `_animate_smooth` to its terminal verdict.  `none` means the
step budget ran out or the run was cancelled; an uncancelled run of a
path of `n` edges terminates well within `n + 2` steps. -/
def animate_smooth_run (rate : ℚ) (u : Nat → ℚ) : Nat → UniState → Option UTerm
| 0, _ => none
| fuel + 1, s =>
  match animate_smooth_step rate u s with
  | .halted => none
  | .done t => some t
  | .next _ s2 => animate_smooth_run rate u fuel s2

/-- `start_unicast_animation` after path resolution: run
`self._animate_smooth(path, 0, 0)` from a fresh animating state. -/
def start_unicast (rate : ℚ) (u : Nat → ℚ) (path : List String) : Option UTerm :=
  animate_smooth_run rate u (path.length + 1)
    { animating := true, path := path, edgeIdx := 0, k := 0 }

/-- `stop_animation` on a unicast run: clears the `animating` flag (the
cleared packet trail and redraw are presentation only). -/
def stop_animation_u (s : UniState) : UniState := { s with animating := false }

/-! ## Broadcast simulator (`_animate_broadcast` / `_animate_broadcast_segment`) -/

/-- The broadcast run state: the `animating` flag, the traversal set
`visited` threaded through the callbacks, the reported sets
`self.broadcast_visited` / `self.broadcast_rejected`, the accepted node
`self.broadcast_accepted`, and the count of loss draws consumed. -/
structure BCast where
  animating : Bool
  visited : List String
  bvisited : List String
  brejected : List String
  baccepted : Option String
  k : Nat
deriving DecidableEq

/-- The pending continuation between callbacks: `expand current` stands
for a scheduled `_animate_broadcast(current, target, visited)` call;
`arrive prev cur remaining` stands for a scheduled
`_animate_broadcast_segment([prev, cur], .., cur, target, visited,
remaining)` call about to process the arrival of the packet at `cur`. -/
inductive BTask
| expand (current : String)
| arrive (prev cur : String) (remaining : List String)
deriving DecidableEq

/-- The per-node broadcast events (the `Packet LOST at`, `ACCEPTED
packet`, `rejected packet` log lines). -/
inductive BEvent
| nodeLost (n : String)
| nodeAccepted (n : String)
| nodeRejected (n : String)
deriving DecidableEq

/-- Outcome of one broadcast callback: cancelled (entry check, nothing
emitted), the flood ended (`_end_broadcast`, which clears `animating`),
or a successor callback was scheduled. -/
inductive BOut
| halted
| done (s : BCast)
| next (evs : List BEvent) (t : BTask) (s : BCast)
deriving DecidableEq

/-- The unvisited-neighbor enumeration
`[n for n in self.G.neighbors(current) if n not in visited]`. -/
def unvisitedNeighbors (g : Graph) (visited : List String) (current : String) : List String :=
  (g.neighbors current).filter (fun n => decide (n ∉ visited))

/-- One broadcast callback.

`expand current` embeds `_animate_broadcast`: with no unvisited neighbor
the flood ends (`_end_broadcast`); otherwise the first one is added to
the traversal `visited` set and a segment toward it is scheduled with the
rest as `remaining_neighbors`.

`arrive prev cur remaining` embeds the arrival branch of
`_animate_broadcast_segment` (`edge_idx >= len(path) - 1`): one loss
trial; on loss `cur` joins `broadcast_rejected`, on success `cur` joins
`broadcast_visited` and is classified by `ipMatch` (acceptance assigns
`self.broadcast_accepted = current_node`, rejection adds to
`broadcast_rejected`); then in either case the next remaining neighbor of
`prev` is scheduled (added to `visited` first), or, with none remaining,
`_animate_broadcast(cur, ...)` is scheduled — expansion continues from
`cur` itself. -/
def bstep (g : Graph) (ips : List (String × String)) (rate : ℚ) (u : Nat → ℚ)
    (target : String) : BTask → BCast → BOut
| .expand current, s =>
  if s.animating = false then .halted
  else
    match unvisitedNeighbors g s.visited current with
    | [] => .done { s with animating := false }
    | n :: rest =>
      .next [] (.arrive current n rest) { s with visited := addSet s.visited n }
| .arrive prev cur remaining, s =>
  if s.animating = false then .halted
  else if u s.k < rate then
    match remaining with
    | n :: rest =>
      .next [.nodeLost cur] (.arrive prev n rest)
        { s with visited := addSet s.visited n,
                 brejected := addSet s.brejected cur, k := s.k + 1 }
    | [] =>
      .next [.nodeLost cur] (.expand cur)
        { s with brejected := addSet s.brejected cur, k := s.k + 1 }
  else if ipMatch ips cur target then
    match remaining with
    | n :: rest =>
      .next [.nodeAccepted cur] (.arrive prev n rest)
        { s with visited := addSet s.visited n, bvisited := addSet s.bvisited cur,
                 baccepted := some cur, k := s.k + 1 }
    | [] =>
      .next [.nodeAccepted cur] (.expand cur)
        { s with bvisited := addSet s.bvisited cur, baccepted := some cur, k := s.k + 1 }
  else
    match remaining with
    | n :: rest =>
      .next [.nodeRejected cur] (.arrive prev n rest)
        { s with visited := addSet s.visited n, bvisited := addSet s.bvisited cur,
                 brejected := addSet s.brejected cur, k := s.k + 1 }
    | [] =>
      .next [.nodeRejected cur] (.expand cur)
        { s with bvisited := addSet s.bvisited cur,
                 brejected := addSet s.brejected cur, k := s.k + 1 }

/-- Drive the broadcast callbacks to completion.  `some s` is the final
state at `_end_broadcast`; `none` means the step budget ran out or the
run was cancelled. -/
def brun (g : Graph) (ips : List (String × String)) (rate : ℚ) (u : Nat → ℚ)
    (target : String) : Nat → BTask → BCast → Option BCast
| 0, _, _ => none
| fuel + 1, t, s =>
  match bstep g ips rate u target t s with
  | .halted => none
  | .done s2 => some s2
  | .next _ t2 s2 => brun g ips rate u target fuel t2 s2

/-- `start_broadcast_animation`: fresh empty run state with
`visited = {src}`, then `_animate_broadcast(src, dst, visited)`.  The
step budget `2 * |nodes| + 2` is sufficient for every draw sequence. -/
def start_broadcast (g : Graph) (ips : List (String × String)) (rate : ℚ)
    (u : Nat → ℚ) (src target : String) : Option BCast :=
  brun g ips rate u target (2 * g.nodes.length + 2) (.expand src)
    { animating := true, visited := [src], bvisited := [], brejected := [],
      baccepted := none, k := 0 }

/-- `stop_animation` on a broadcast run: clears the `animating` flag. -/
def stop_animation_b (s : BCast) : BCast := { s with animating := false }

/-! ## Run start (`start_animation`) -/

/-- The simulation mode radio buttons. -/
inductive Mode
| unicast
| broadcast
deriving DecidableEq

/-- The shared exclusivity flag `self.animating`. -/
structure AppState where
  animating : Bool
deriving DecidableEq

/-- The immediate outcome of pressing start: each early-return branch of
`start_animation` / `start_unicast_animation` / `start_broadcast_animation`,
or a started run. -/
inductive StartOutcome
| alreadyRunning
| emptySelection
| invalidNode
| noPath
| noOtherNodes
| unicastStarted (path : List String)
| broadcastStarted
deriving DecidableEq

/-- `start_animation`: reject while a run is active, reject empty
selections, reject identifiers absent from the snapshot, then dispatch on
the mode; unicast resolves the path first and rejects no-path, broadcast
rejects a single-node topology; only a successful start sets
`self.animating = True`. -/
def start_animation (g : Graph) (mode : Mode) (src dst : String) (s : AppState) :
    StartOutcome × AppState :=
  if s.animating then (.alreadyRunning, s)
  else if src = "" ∨ dst = "" then (.emptySelection, s)
  else if ¬ (src ∈ g.nodes ∧ dst ∈ g.nodes) then (.invalidNode, s)
  else
    match mode with
    | .unicast =>
      match shortest_path g src dst with
      | none => (.noPath, s)
      | some p => (.unicastStarted p, { s with animating := true })
    | .broadcast =>
      if g.nodes.filter (fun n => decide (n ≠ src)) = [] then (.noOtherNodes, s)
      else (.broadcastStarted, { s with animating := true })

/-! ## Concrete topologies used as test inputs -/

/-- A star around `N1` where `N2` and `N3` carry the same IP address
(`set_ip_address` validates only the dotted-quad format, so two nodes may
share one IP). -/
def gDupIp : Graph := { nodes := ["N1", "N2", "N3"], edges := [("N1", "N2"), ("N1", "N3")] }

/-- The duplicate IP table for `gDupIp`: target `N2` and bystander `N3`
both hold `10.0.0.9`. -/
def ipsDupIp : List (String × String) := [("N2", "10.0.0.9"), ("N3", "10.0.0.9")]

/-- A tree: `N1` connects to `N2` and `N3`, and `N4` hangs off `N2`. -/
def gTree : Graph :=
  { nodes := ["N1", "N2", "N3", "N4"], edges := [("N1", "N2"), ("N1", "N3"), ("N2", "N4")] }

/-- A three-node chain `N1 - N2 - N3`. -/
def gChain : Graph := { nodes := ["N1", "N2", "N3"], edges := [("N1", "N2"), ("N2", "N3")] }

/-- The rational `1/2`, given in normalized form so that kernel
reduction can evaluate comparisons against it. -/
def half : ℚ := ⟨1, 2, by decide, Nat.coprime_one_left 2⟩

/-- Draw sequence whose first draw is a drop at rate `1/2` (draw `0`)
and all later draws are not (draw `1/2`); every draw lies in `[0, 1)`. -/
def uDropFirst : Nat → ℚ := fun m => if m = 0 then 0 else half

/-- The number of snapshot nodes not yet in the traversal visited set:
the main component of the broadcast termination measure. -/
def unvisitedCount (g : Graph) (visited : List String) : Nat :=
  (g.nodes.filter (fun v => decide (v ∉ visited))).length

/-- Termination measure for a pending broadcast continuation: every
broadcast callback strictly decreases it. -/
def measureB (g : Graph) : BTask → BCast → Nat
| .expand _, s => 2 * unvisitedCount g s.visited + 1
| .arrive _ _ _, s => 2 * unvisitedCount g s.visited + 2

/-- Structural invariant of an in-flight broadcast continuation: a
pending `remaining_neighbors` list holds distinct snapshot nodes none of
which is in the traversal visited set yet. -/
def bInv (g : Graph) : BTask → BCast → Prop
| .expand _, _ => True
| .arrive _ _ remaining, s => remaining.Nodup ∧ ∀ n ∈ remaining, n ∈ g.nodes ∧ n ∉ s.visited

/-! ## Theorems -/

/-! ### Basic facts about `addSet` and the broadcast step -/

theorem mem_addSet {l : List String} {x y : String} : y ∈ addSet l x ↔ y ∈ l ∨ y = x := by
  unfold addSet
  by_cases h : x ∈ l
  · rw [if_pos h]
    constructor
    · exact Or.inl
    · rintro (hy | rfl)
      · exact hy
      · exact h
  · rw [if_neg h]
    simp

theorem subset_addSet (l : List String) (x : String) : l ⊆ addSet l x := by
  intro y hy
  exact mem_addSet.mpr (Or.inl hy)

theorem mem_addSet_self (l : List String) (x : String) : x ∈ addSet l x :=
  mem_addSet.mpr (Or.inr rfl)

theorem addSet_nodup {l : List String} {x : String} (h : l.Nodup) : (addSet l x).Nodup := by
  unfold addSet
  by_cases hx : x ∈ l
  · rwa [if_pos hx]
  · rw [if_neg hx]
    refine List.Nodup.append h (List.nodup_singleton x) ?_
    intro a ha hax
    rw [List.mem_singleton] at hax
    exact hx (hax ▸ ha)

/-- A broadcast callback does nothing at all exactly when the run was
cancelled before it fired. -/
theorem bstep_halted_iff {g : Graph} {ips : List (String × String)} {rate : ℚ}
    {u : Nat → ℚ} {target : String} {t : BTask} {s : BCast} :
    bstep g ips rate u target t s = .halted ↔ s.animating = false := by
  constructor
  · intro h
    by_contra ha
    cases t with
    | expand cur =>
      simp only [bstep] at h
      rw [if_neg ha] at h
      cases hn : unvisitedNeighbors g s.visited cur with
      | nil => rw [hn] at h; exact BOut.noConfusion h
      | cons n rest => rw [hn] at h; exact BOut.noConfusion h
    | arrive prev cur remaining =>
      simp only [bstep] at h
      rw [if_neg ha] at h
      by_cases hd : u s.k < rate
      · rw [if_pos hd] at h
        cases remaining with
        | nil => exact BOut.noConfusion h
        | cons n rest => exact BOut.noConfusion h
      · rw [if_neg hd] at h
        by_cases hip : ipMatch ips cur target = true
        · rw [if_pos hip] at h
          cases remaining with
          | nil => exact BOut.noConfusion h
          | cons n rest => exact BOut.noConfusion h
        · rw [if_neg hip] at h
          cases remaining with
          | nil => exact BOut.noConfusion h
          | cons n rest => exact BOut.noConfusion h
  · intro h
    cases t with
    | expand cur =>
      simp only [bstep]
      rw [if_pos h]
    | arrive prev cur remaining =>
      simp only [bstep]
      rw [if_pos h]

/-- The only way a broadcast callback ends the flood is
`_end_broadcast`, which merely clears the `animating` flag. -/
theorem bstep_done_eq {g : Graph} {ips : List (String × String)} {rate : ℚ}
    {u : Nat → ℚ} {target : String} {t : BTask} {s s2 : BCast}
    (h : bstep g ips rate u target t s = .done s2) :
    s2 = { s with animating := false } := by
  by_cases ha : s.animating = false
  · rw [bstep_halted_iff.mpr ha] at h
    exact BOut.noConfusion h
  · cases t with
    | expand cur =>
      simp only [bstep] at h
      rw [if_neg ha] at h
      cases hn : unvisitedNeighbors g s.visited cur with
      | nil =>
        rw [hn] at h
        injection h with h2
        exact h2.symm
      | cons n rest => rw [hn] at h; exact BOut.noConfusion h
    | arrive prev cur remaining =>
      simp only [bstep] at h
      rw [if_neg ha] at h
      by_cases hd : u s.k < rate
      · rw [if_pos hd] at h
        cases remaining with
        | nil => exact BOut.noConfusion h
        | cons n rest => exact BOut.noConfusion h
      · rw [if_neg hd] at h
        by_cases hip : ipMatch ips cur target = true
        · rw [if_pos hip] at h
          cases remaining with
          | nil => exact BOut.noConfusion h
          | cons n rest => exact BOut.noConfusion h
        · rw [if_neg hip] at h
          cases remaining with
          | nil => exact BOut.noConfusion h
          | cons n rest => exact BOut.noConfusion h

/-- Full characterization of a progressing broadcast callback: the seven
possible transitions (expansion; drop with/without remaining neighbors;
accepted or rejected arrival with/without remaining neighbors), each with
the exact successor state. -/
theorem bstep_next_cases {g : Graph} {ips : List (String × String)} {rate : ℚ}
    {u : Nat → ℚ} {target : String} {t : BTask} {s : BCast} {evs : List BEvent}
    {t2 : BTask} {s2 : BCast}
    (h : bstep g ips rate u target t s = .next evs t2 s2) :
    s.animating = true ∧
    ((∃ cur n rest, t = .expand cur ∧ unvisitedNeighbors g s.visited cur = n :: rest ∧
        t2 = .arrive cur n rest ∧ s2 = { s with visited := addSet s.visited n }) ∨
     (∃ prev cur n rest, t = .arrive prev cur (n :: rest) ∧ u s.k < rate ∧
        t2 = .arrive prev n rest ∧
        s2 = { s with visited := addSet s.visited n,
                      brejected := addSet s.brejected cur, k := s.k + 1 }) ∨
     (∃ prev cur, t = .arrive prev cur [] ∧ u s.k < rate ∧ t2 = .expand cur ∧
        s2 = { s with brejected := addSet s.brejected cur, k := s.k + 1 }) ∨
     (∃ prev cur n rest, t = .arrive prev cur (n :: rest) ∧ ¬ u s.k < rate ∧
        ipMatch ips cur target = true ∧ t2 = .arrive prev n rest ∧
        s2 = { s with visited := addSet s.visited n, bvisited := addSet s.bvisited cur,
                      baccepted := some cur, k := s.k + 1 }) ∨
     (∃ prev cur, t = .arrive prev cur [] ∧ ¬ u s.k < rate ∧
        ipMatch ips cur target = true ∧ t2 = .expand cur ∧
        s2 = { s with bvisited := addSet s.bvisited cur, baccepted := some cur,
                      k := s.k + 1 }) ∨
     (∃ prev cur n rest, t = .arrive prev cur (n :: rest) ∧ ¬ u s.k < rate ∧
        ipMatch ips cur target = false ∧ t2 = .arrive prev n rest ∧
        s2 = { s with visited := addSet s.visited n, bvisited := addSet s.bvisited cur,
                      brejected := addSet s.brejected cur, k := s.k + 1 }) ∨
     (∃ prev cur, t = .arrive prev cur [] ∧ ¬ u s.k < rate ∧
        ipMatch ips cur target = false ∧ t2 = .expand cur ∧
        s2 = { s with bvisited := addSet s.bvisited cur,
                      brejected := addSet s.brejected cur, k := s.k + 1 })) := by
  have ha : ¬ s.animating = false := by
    intro hf
    rw [bstep_halted_iff.mpr hf] at h
    exact BOut.noConfusion h
  have ha2 : s.animating = true := by
    cases hb : s.animating with
    | false => exact absurd hb ha
    | true => rfl
  refine ⟨ha2, ?_⟩
  cases t with
  | expand cur =>
    simp only [bstep] at h
    rw [if_neg ha] at h
    cases hn : unvisitedNeighbors g s.visited cur with
    | nil => rw [hn] at h; exact BOut.noConfusion h
    | cons n rest =>
      rw [hn] at h
      injection h with h1 h2 h3
      exact Or.inl ⟨cur, n, rest, rfl, hn, h2.symm, h3.symm⟩
  | arrive prev cur remaining =>
    simp only [bstep] at h
    rw [if_neg ha] at h
    by_cases hd : u s.k < rate
    · rw [if_pos hd] at h
      cases remaining with
      | nil =>
        injection h with h1 h2 h3
        exact Or.inr (Or.inr (Or.inl ⟨prev, cur, rfl, hd, h2.symm, h3.symm⟩))
      | cons n rest =>
        injection h with h1 h2 h3
        exact Or.inr (Or.inl ⟨prev, cur, n, rest, rfl, hd, h2.symm, h3.symm⟩)
    · rw [if_neg hd] at h
      by_cases hip : ipMatch ips cur target = true
      · rw [if_pos hip] at h
        cases remaining with
        | nil =>
          injection h with h1 h2 h3
          exact Or.inr (Or.inr (Or.inr (Or.inr (Or.inl ⟨prev, cur, rfl, hd, hip, h2.symm, h3.symm⟩))))
        | cons n rest =>
          injection h with h1 h2 h3
          exact Or.inr (Or.inr (Or.inr (Or.inl ⟨prev, cur, n, rest, rfl, hd, hip, h2.symm, h3.symm⟩)))
      · have hip2 : ipMatch ips cur target = false := by
          cases hb : ipMatch ips cur target with
          | false => rfl
          | true => exact absurd hb hip
        rw [if_neg hip] at h
        cases remaining with
        | nil =>
          injection h with h1 h2 h3
          exact Or.inr (Or.inr (Or.inr (Or.inr (Or.inr (Or.inr ⟨prev, cur, rfl, hd, hip2, h2.symm, h3.symm⟩)))))
        | cons n rest =>
          injection h with h1 h2 h3
          exact Or.inr (Or.inr (Or.inr (Or.inr (Or.inr (Or.inl ⟨prev, cur, n, rest, rfl, hd, hip2, h2.symm, h3.symm⟩)))))

/-- C1 counterexample: on `gDupIp` with target `N2` (target IP
`10.0.0.9`) and no losses, `N2` is the first successfully-received node
whose IP equals the target IP (`bvisited = [N2, N3]` in receipt order,
and `N2`'s IP matches), yet the run ends with `accepted = N3`: the
subsequent match overwrote the first one, refuting "first match wins,
subsequent IP matches do not overwrite". -/
theorem broadcast_accepted_overwritten :
    start_broadcast gDupIp ipsDupIp 0 (fun _ => 1) "N1" "N2" =
      some { animating := false, visited := ["N1", "N2", "N3"], bvisited := ["N2", "N3"],
             brejected := [], baccepted := some "N3", k := 2 } ∧
    ipMatch ipsDupIp "N2" "N2" = true ∧ "N2" ≠ "N3" := by
  refine ⟨by decide, by decide, by decide⟩

/-- C2: on the tree `gTree` with `lossRate = 0`, the flood from `N1`
ends with `visited = {N2, N3}` and `rejected = {N2, N3}`: the reachable
node `N4` (two hops from the source) is in neither set.  The code ends
the whole flood as soon as the most recently expanded node has no
unvisited neighbor, abandoning the pending subtree under `N2`, contrary
to its own `# Start BFS broadcast` comment and its `Broadcasting to all
.. nodes` banner. -/
theorem broadcast_skips_reachable_node :
    (start_broadcast gTree [] 0 (fun _ => 1) "N1" "N1").map BCast.bvisited = some ["N2", "N3"] ∧
    (start_broadcast gTree [] 0 (fun _ => 1) "N1" "N1").map BCast.brejected = some ["N2", "N3"] ∧
    "N4" ∉ (["N2", "N3"] : List String) ∧
    hasPathLen gTree "N1" "N4" 2 := by
  refine ⟨by decide, by decide, by decide, ?_⟩
  exact hasPathLen.step (w := "N2") (by decide)
    (hasPathLen.step (w := "N4") (by decide) (hasPathLen.refl "N4"))

/-- C3 counterexample: on the chain `gChain` with a drop on the first
arrival only, `N2` is lost (`rejected = [N2, N3]`, `N2` not in
`bvisited`), yet the flood continues by expanding from `N2` itself and
delivers to `N3` — a node adjacent only to `N2`, not to the source.  The
lost node did become a frontier node for further expansion, refuting "it
never becomes a frontier node". -/
theorem broadcast_lost_node_becomes_frontier :
    start_broadcast gChain [] half uDropFirst "N1" "N1" =
      some { animating := false, visited := ["N1", "N2", "N3"], bvisited := ["N3"],
             brejected := ["N2", "N3"], baccepted := none, k := 2 } ∧
    gChain.adj "N1" "N3" = false ∧ gChain.adj "N2" "N3" = true := by
  refine ⟨by decide, by decide, by decide⟩

/-- C8: cancellation.  After `stop_animation` clears the `animating`
flag, the very next unicast or broadcast callback observes the flag at
entry and returns without emitting any event or changing any state
(`.halted`); stopping twice equals stopping once, and stopping an
already-inactive run changes nothing. -/
theorem cancellation_halts_and_is_idempotent (rate : ℚ) (u : Nat → ℚ) (g : Graph)
    (ips : List (String × String)) (target : String) (t : BTask)
    (su : UniState) (sb : BCast) :
    animate_smooth_step rate u (stop_animation_u su) = .halted ∧
    bstep g ips rate u target t (stop_animation_b sb) = .halted ∧
    stop_animation_u (stop_animation_u su) = stop_animation_u su ∧
    stop_animation_b (stop_animation_b sb) = stop_animation_b sb ∧
    (su.animating = false → stop_animation_u su = su) ∧
    (sb.animating = false → stop_animation_b sb = sb) := by
  refine ⟨?_, ?_, rfl, rfl, ?_, ?_⟩
  · simp [animate_smooth_step, stop_animation_u]
  · exact bstep_halted_iff.mpr rfl
  · intro h
    cases su with
    | mk a p e k => cases a <;> simp_all [stop_animation_u]
  · intro h
    cases sb with
    | mk a v bv br ba k => cases a <;> simp_all [stop_animation_b]

/-- C8 witness: the cancellation theorem applied at a concrete state
whose run is inactive, discharging the hypotheses of its last two
conjuncts. -/
theorem cancellation_halts_witness :
    animate_smooth_step 0 (fun _ => 1)
      (stop_animation_u { animating := false, path := ["N1"], edgeIdx := 0, k := 0 }) = .halted ∧
    ({ animating := false, path := ["N1"], edgeIdx := 0, k := 0 } : UniState).animating = false ∧
    stop_animation_u { animating := false, path := ["N1"], edgeIdx := 0, k := 0 } =
      { animating := false, path := ["N1"], edgeIdx := 0, k := 0 } :=
  ⟨(cancellation_halts_and_is_idempotent 0 (fun _ => 1) gChain [] "N1" (.expand "N1")
      { animating := false, path := ["N1"], edgeIdx := 0, k := 0 }
      { animating := false, visited := [], bvisited := [], brejected := [],
        baccepted := none, k := 0 }).1,
   rfl,
   (cancellation_halts_and_is_idempotent 0 (fun _ => 1) gChain [] "N1" (.expand "N1")
      { animating := false, path := ["N1"], edgeIdx := 0, k := 0 }
      { animating := false, visited := [], bvisited := [], brejected := [],
        baccepted := none, k := 0 }).2.2.2.2.1 rfl⟩

/-- C9: starting a run (either mode) while one is active returns the
already-running rejection immediately and leaves the state unchanged —
the new run is neither queued nor started. -/
theorem start_while_running_rejected (g : Graph) (mode : Mode) (src dst : String)
    (s : AppState) (h : s.animating = true) :
    start_animation g mode src dst s = (.alreadyRunning, s) := by
  simp [start_animation, h]

/-- C9 witness: the rejection theorem applied at a concrete active
state. -/
theorem start_while_running_witness :
    ({ animating := true } : AppState).animating = true ∧
    start_animation gChain .unicast "N1" "N3" { animating := true } =
      (.alreadyRunning, { animating := true }) :=
  ⟨rfl, start_while_running_rejected gChain .unicast "N1" "N3" { animating := true } rfl⟩

/-! ### Run-level invariants of the broadcast -/

theorem mem_unvisitedNeighbors {g : Graph} {visited : List String} {current n : String}
    (h : n ∈ unvisitedNeighbors g visited current) : n ∈ g.nodes ∧ n ∉ visited := by
  unfold unvisitedNeighbors Graph.neighbors at h
  simp only [List.mem_filter, decide_eq_true_eq] at h
  exact ⟨h.1.1, h.2⟩

theorem unvisitedNeighbors_nodup {g : Graph} (hw : g.nodes.Nodup)
    (visited : List String) (current : String) : (unvisitedNeighbors g visited current).Nodup :=
  (hw.filter _).filter _

/-- Any state property preserved by every progressing step and by the
final `_end_broadcast` flag clear holds of the final state of a run. -/
theorem brun_invariant {g : Graph} {ips : List (String × String)} {rate : ℚ}
    {u : Nat → ℚ} {target : String} (P : BCast → Prop)
    (hstep : ∀ t s evs t2 s2, bstep g ips rate u target t s = .next evs t2 s2 → P s → P s2)
    (hdone : ∀ s, P s → P { s with animating := false }) :
    ∀ fuel t s sf, brun g ips rate u target fuel t s = some sf → P s → P sf := by
  intro fuel
  induction fuel with
  | zero =>
    intro t s sf h hP
    simp only [brun] at h
    exact Option.noConfusion h
  | succ f ih =>
    intro t s sf h hP
    simp only [brun] at h
    cases hb : bstep g ips rate u target t s with
    | halted =>
      rw [hb] at h
      exact Option.noConfusion h
    | done s2 =>
      rw [hb] at h
      injection h with h2
      have hps2 : P s2 := by
        rw [bstep_done_eq hb]
        exact hdone s hP
      exact h2 ▸ hps2
    | next evs t2 s2 =>
      rw [hb] at h
      exact ih t2 s2 sf h (hstep t s evs t2 s2 hb hP)

theorem filter_sub_le (visited : List String) (n : String) :
    ∀ l : List String,
      (l.filter (fun v => decide (v ∉ visited ++ [n]))).length ≤
        (l.filter (fun v => decide (v ∉ visited))).length := by
  intro l
  induction l with
  | nil => simp
  | cons a tl ih =>
    simp only [List.filter_cons, decide_eq_true_eq]
    by_cases h1 : a ∉ visited ++ [n]
    · have h2 : a ∉ visited := fun ha => h1 (List.mem_append_left _ ha)
      rw [if_pos h1, if_pos h2]
      simp only [List.length_cons]
      omega
    · rw [if_neg h1]
      by_cases h2 : a ∉ visited
      · rw [if_pos h2]
        simp only [List.length_cons]
        omega
      · rw [if_neg h2]
        omega

theorem filter_sub_lt (visited : List String) (n : String) :
    ∀ l : List String, n ∈ l → n ∉ visited →
      (l.filter (fun v => decide (v ∉ visited ++ [n]))).length <
        (l.filter (fun v => decide (v ∉ visited))).length := by
  intro l
  induction l with
  | nil => intro h; exact absurd h (List.not_mem_nil n)
  | cons a tl ih =>
    intro hnl hnv
    simp only [List.filter_cons, decide_eq_true_eq]
    by_cases han : a = n
    · subst han
      have h1 : ¬ a ∉ visited ++ [a] :=
        fun hc => hc (List.mem_append_right _ (List.mem_singleton_self a))
      rw [if_neg h1, if_pos hnv]
      simp only [List.length_cons]
      exact Nat.lt_succ_of_le (filter_sub_le visited a tl)
    · have hn_tl : n ∈ tl := by
        cases List.mem_cons.mp hnl with
        | inl h => exact absurd h.symm han
        | inr h => exact h
      by_cases h1 : a ∉ visited ++ [n]
      · have h2 : a ∉ visited := fun ha => h1 (List.mem_append_left _ ha)
        rw [if_pos h1, if_pos h2]
        simp only [List.length_cons]
        have := ih hn_tl hnv
        omega
      · rw [if_neg h1]
        by_cases h2 : a ∉ visited
        · rw [if_pos h2]
          simp only [List.length_cons]
          have := ih hn_tl hnv
          omega
        · rw [if_neg h2]
          exact ih hn_tl hnv

theorem unvisitedCount_addSet_lt {g : Graph} {visited : List String} {n : String}
    (hn : n ∈ g.nodes) (hv : n ∉ visited) :
    unvisitedCount g (addSet visited n) < unvisitedCount g visited := by
  unfold unvisitedCount addSet
  rw [if_neg hv]
  exact filter_sub_lt visited n g.nodes hn hv

theorem unvisitedCount_le (g : Graph) (visited : List String) :
    unvisitedCount g visited ≤ g.nodes.length :=
  List.length_filter_le _ _

theorem bInv_tail {g : Graph} {s s2 : BCast} {n : String} {rest : List String}
    (hvis : s2.visited = addSet s.visited n)
    (hnd : (n :: rest).Nodup)
    (hall : ∀ m ∈ n :: rest, m ∈ g.nodes ∧ m ∉ s.visited)
    (p c : String) : bInv g (.arrive p c rest) s2 := by
  refine ⟨(List.nodup_cons.mp hnd).2, ?_⟩
  intro m hm
  obtain ⟨hmg, hmv⟩ := hall m (List.mem_cons_of_mem n hm)
  refine ⟨hmg, ?_⟩
  rw [hvis]
  intro hmem
  rcases mem_addSet.mp hmem with h1 | h2
  · exact hmv h1
  · exact (List.nodup_cons.mp hnd).1 (h2 ▸ hm)

/-- Every broadcast run whose continuation satisfies the structural
invariant finishes within its step measure, for every draw sequence. -/
theorem brun_isSome_of_measure {g : Graph} {ips : List (String × String)} {rate : ℚ}
    {u : Nat → ℚ} {target : String} (hw : g.nodes.Nodup) :
    ∀ fuel t s, s.animating = true → bInv g t s → measureB g t s < fuel →
      (brun g ips rate u target fuel t s).isSome = true := by
  intro fuel
  induction fuel with
  | zero =>
    intro t s _ _ hm
    exact absurd hm (Nat.not_lt_zero _)
  | succ f ih =>
    intro t s ha hinv hm
    simp only [brun]
    cases hb : bstep g ips rate u target t s with
    | halted =>
      rw [bstep_halted_iff.mp hb] at ha
      exact Bool.noConfusion ha
    | done s2 => rfl
    | next evs t2 s2 =>
      rcases (bstep_next_cases hb).2 with
        ⟨cur, n, rest, ht, hn, ht2, hs2⟩ |
        ⟨prev, cur, n, rest, ht, hd, ht2, hs2⟩ |
        ⟨prev, cur, ht, hd, ht2, hs2⟩ |
        ⟨prev, cur, n, rest, ht, hd, hip, ht2, hs2⟩ |
        ⟨prev, cur, ht, hd, hip, ht2, hs2⟩ |
        ⟨prev, cur, n, rest, ht, hd, hip, ht2, hs2⟩ |
        ⟨prev, cur, ht, hd, hip, ht2, hs2⟩
      · -- expansion discovers a fresh node
        subst ht ht2 hs2
        have hmemrest : ∀ m ∈ n :: rest, m ∈ g.nodes ∧ m ∉ s.visited := by
          intro m hm2
          exact mem_unvisitedNeighbors (hn ▸ hm2)
        have hnd : (n :: rest).Nodup := hn ▸ unvisitedNeighbors_nodup hw s.visited cur
        obtain ⟨hng, hnv⟩ := hmemrest n (List.mem_cons_self n rest)
        apply ih
        · exact ha
        · exact bInv_tail rfl hnd hmemrest cur n
        · have hlt : unvisitedCount g (addSet s.visited n) < unvisitedCount g s.visited :=
            unvisitedCount_addSet_lt hng hnv
          simp only [measureB] at hm ⊢
          omega
      · -- drop with remaining neighbors: next neighbor is fresh by the invariant
        subst ht ht2 hs2
        obtain ⟨hnd, hall⟩ := hinv
        obtain ⟨hng, hnv⟩ := hall n (List.mem_cons_self n rest)
        apply ih
        · exact ha
        · exact bInv_tail rfl hnd hall prev n
        · have hlt : unvisitedCount g (addSet s.visited n) < unvisitedCount g s.visited :=
            unvisitedCount_addSet_lt hng hnv
          simp only [measureB] at hm ⊢
          omega
      · -- drop with no remaining neighbors: expansion from the lost node
        subst ht ht2 hs2
        apply ih
        · exact ha
        · exact trivial
        · simp only [measureB] at hm ⊢
          omega
      · -- accepted arrival with remaining neighbors
        subst ht ht2 hs2
        obtain ⟨hnd, hall⟩ := hinv
        obtain ⟨hng, hnv⟩ := hall n (List.mem_cons_self n rest)
        apply ih
        · exact ha
        · exact bInv_tail rfl hnd hall prev n
        · have hlt : unvisitedCount g (addSet s.visited n) < unvisitedCount g s.visited :=
            unvisitedCount_addSet_lt hng hnv
          simp only [measureB] at hm ⊢
          omega
      · -- accepted arrival, no remaining neighbors
        subst ht ht2 hs2
        apply ih
        · exact ha
        · exact trivial
        · simp only [measureB] at hm ⊢
          omega
      · -- rejected arrival with remaining neighbors
        subst ht ht2 hs2
        obtain ⟨hnd, hall⟩ := hinv
        obtain ⟨hng, hnv⟩ := hall n (List.mem_cons_self n rest)
        apply ih
        · exact ha
        · exact bInv_tail rfl hnd hall prev n
        · have hlt : unvisitedCount g (addSet s.visited n) < unvisitedCount g s.visited :=
            unvisitedCount_addSet_lt hng hnv
          simp only [measureB] at hm ⊢
          omega
      · -- rejected arrival, no remaining neighbors
        subst ht ht2 hs2
        apply ih
        · exact ha
        · exact trivial
        · simp only [measureB] at hm ⊢
          omega

theorem ipMatch_iff {ips : List (String × String)} {c target : String} :
    ipMatch ips c target = true ↔
      (getIp ips c ≠ "" ∧ getIp ips target ≠ "" ∧ getIp ips c = getIp ips target) := by
  unfold ipMatch
  simp [Bool.and_eq_true, ne_eq, and_assoc]

theorem ipMatch_of_target_empty {ips : List (String × String)} {target : String}
    (hT : getIp ips target = "") (c : String) : ipMatch ips c target = false := by
  unfold ipMatch
  rw [hT]
  simp

theorem bstep_accepted_step {g : Graph} {ips : List (String × String)} {rate : ℚ}
    {u : Nat → ℚ} {target : String} {t : BTask} {s : BCast} {evs : List BEvent}
    {t2 : BTask} {s2 : BCast} (hb : bstep g ips rate u target t s = .next evs t2 s2) :
    s2.baccepted = s.baccepted ∨ ∃ c, ipMatch ips c target = true ∧ s2.baccepted = some c := by
  rcases (bstep_next_cases hb).2 with
    ⟨cur, n, rest, ht, hn, ht2, hs2⟩ |
    ⟨prev, cur, n, rest, ht, hd, ht2, hs2⟩ |
    ⟨prev, cur, ht, hd, ht2, hs2⟩ |
    ⟨prev, cur, n, rest, ht, hd, hip, ht2, hs2⟩ |
    ⟨prev, cur, ht, hd, hip, ht2, hs2⟩ |
    ⟨prev, cur, n, rest, ht, hd, hip, ht2, hs2⟩ |
    ⟨prev, cur, ht, hd, hip, ht2, hs2⟩ <;> subst hs2
  · exact Or.inl rfl
  · exact Or.inl rfl
  · exact Or.inl rfl
  · exact Or.inr ⟨cur, hip, rfl⟩
  · exact Or.inr ⟨cur, hip, rfl⟩
  · exact Or.inl rfl
  · exact Or.inl rfl

theorem bstep_nodup_step {g : Graph} {ips : List (String × String)} {rate : ℚ}
    {u : Nat → ℚ} {target : String} {t : BTask} {s : BCast} {evs : List BEvent}
    {t2 : BTask} {s2 : BCast} (hb : bstep g ips rate u target t s = .next evs t2 s2)
    (h : s.visited.Nodup ∧ s.bvisited.Nodup) : s2.visited.Nodup ∧ s2.bvisited.Nodup := by
  obtain ⟨h1, h2⟩ := h
  rcases (bstep_next_cases hb).2 with
    ⟨cur, n, rest, ht, hn, ht2, hs2⟩ |
    ⟨prev, cur, n, rest, ht, hd, ht2, hs2⟩ |
    ⟨prev, cur, ht, hd, ht2, hs2⟩ |
    ⟨prev, cur, n, rest, ht, hd, hip, ht2, hs2⟩ |
    ⟨prev, cur, ht, hd, hip, ht2, hs2⟩ |
    ⟨prev, cur, n, rest, ht, hd, hip, ht2, hs2⟩ |
    ⟨prev, cur, ht, hd, hip, ht2, hs2⟩ <;> subst hs2 <;>
    refine ⟨?_, ?_⟩ <;>
    first
      | exact h1
      | exact h2
      | exact addSet_nodup h1
      | exact addSet_nodup h2

theorem bstep_rejected_step {g : Graph} {ips : List (String × String)} {rate : ℚ}
    {u : Nat → ℚ} {target : String} (hT : getIp ips target = "")
    {t : BTask} {s : BCast} {evs : List BEvent} {t2 : BTask} {s2 : BCast}
    (hb : bstep g ips rate u target t s = .next evs t2 s2)
    (h : s.baccepted = none ∧ ∀ n ∈ s.bvisited, n ∈ s.brejected) :
    s2.baccepted = none ∧ ∀ n ∈ s2.bvisited, n ∈ s2.brejected := by
  obtain ⟨h1, h2⟩ := h
  rcases (bstep_next_cases hb).2 with
    ⟨cur, n, rest, ht, hn, ht2, hs2⟩ |
    ⟨prev, cur, n, rest, ht, hd, ht2, hs2⟩ |
    ⟨prev, cur, ht, hd, ht2, hs2⟩ |
    ⟨prev, cur, n, rest, ht, hd, hip, ht2, hs2⟩ |
    ⟨prev, cur, ht, hd, hip, ht2, hs2⟩ |
    ⟨prev, cur, n, rest, ht, hd, hip, ht2, hs2⟩ |
    ⟨prev, cur, ht, hd, hip, ht2, hs2⟩
  · subst hs2
    exact ⟨h1, h2⟩
  · subst hs2
    exact ⟨h1, fun m hm => subset_addSet _ _ (h2 m hm)⟩
  · subst hs2
    exact ⟨h1, fun m hm => subset_addSet _ _ (h2 m hm)⟩
  · exact absurd hip (by rw [ipMatch_of_target_empty hT cur]; exact Bool.noConfusion)
  · exact absurd hip (by rw [ipMatch_of_target_empty hT cur]; exact Bool.noConfusion)
  · subst hs2
    refine ⟨h1, ?_⟩
    intro m hm
    rcases mem_addSet.mp hm with hmo | rfl
    · exact subset_addSet _ _ (h2 m hmo)
    · exact mem_addSet_self _ _
  · subst hs2
    refine ⟨h1, ?_⟩
    intro m hm
    rcases mem_addSet.mp hm with hmo | rfl
    · exact subset_addSet _ _ (h2 m hmo)
    · exact mem_addSet_self _ _

theorem bstep_accepted_isSome_step {g : Graph} {ips : List (String × String)} {rate : ℚ}
    {u : Nat → ℚ} {target : String} {t : BTask} {s : BCast} {evs : List BEvent}
    {t2 : BTask} {s2 : BCast} (hb : bstep g ips rate u target t s = .next evs t2 s2)
    (h : s.baccepted.isSome = true) : s2.baccepted.isSome = true := by
  rcases bstep_accepted_step hb with heq | ⟨c, _, heq⟩
  · rw [heq]
    exact h
  · rw [heq]
    rfl

/-- C7: every broadcast run on a finite snapshot terminates for every
draw sequence: the `2 * |nodes| + 2` step budget of `start_broadcast` is
always sufficient (each callback strictly shrinks the measure
`2 * |unvisited nodes| + task weight`, so the flood ends after `O(nodes)`
≤ `O(nodes + edges)` callbacks), and a node enters the traversal visited
set and the reported visited set at most once (both lists stay
duplicate-free). -/
theorem broadcast_terminates (g : Graph) (ips : List (String × String)) (rate : ℚ)
    (u : Nat → ℚ) (src target : String) (hw : g.nodes.Nodup) :
    (start_broadcast g ips rate u src target).isSome = true ∧
    (∀ fuel, 2 * g.nodes.length + 2 ≤ fuel →
      (brun g ips rate u target fuel (.expand src)
        { animating := true, visited := [src], bvisited := [], brejected := [],
          baccepted := none, k := 0 }).isSome = true) ∧
    (∀ sf, start_broadcast g ips rate u src target = some sf →
      sf.visited.Nodup ∧ sf.bvisited.Nodup) := by
  have hgen : ∀ fuel, 2 * g.nodes.length + 2 ≤ fuel →
      (brun g ips rate u target fuel (.expand src)
        { animating := true, visited := [src], bvisited := [], brejected := [],
          baccepted := none, k := 0 }).isSome = true := by
    intro fuel hf
    apply brun_isSome_of_measure hw
    · rfl
    · exact trivial
    · have := unvisitedCount_le g [src]
      simp only [measureB]
      omega
  refine ⟨hgen _ (le_refl _), hgen, ?_⟩
  intro sf hsf
  exact brun_invariant (fun st => st.visited.Nodup ∧ st.bvisited.Nodup)
    (fun t s evs t2 s2 hb hP => bstep_nodup_step hb hP)
    (fun s hP => hP) _ _ _ sf hsf ⟨List.nodup_singleton src, List.nodup_nil⟩

/-- C7 witness: the termination theorem applied to the chain topology,
whose node list is duplicate-free. -/
theorem broadcast_terminates_witness :
    gChain.nodes.Nodup ∧
    (start_broadcast gChain [] 0 (fun _ => 1) "N1" "N1").isSome = true :=
  ⟨by decide, (broadcast_terminates gChain [] 0 (fun _ => 1) "N1" "N1" (by decide)).1⟩

/-- C10: a node is accepted only when both its own IP and the target
node's IP are assigned (non-empty) and equal; in particular with an
unassigned target IP the run completes with `accepted = none` and every
successfully received node also appears in `rejected`. -/
theorem broadcast_accept_requires_ip (g : Graph) (ips : List (String × String))
    (rate : ℚ) (u : Nat → ℚ) (src target : String) :
    (∀ sf, start_broadcast g ips rate u src target = some sf →
      ∀ c, sf.baccepted = some c →
        getIp ips c ≠ "" ∧ getIp ips target ≠ "" ∧ getIp ips c = getIp ips target) ∧
    (getIp ips target = "" →
      ∀ sf, start_broadcast g ips rate u src target = some sf →
        sf.baccepted = none ∧ ∀ n ∈ sf.bvisited, n ∈ sf.brejected) := by
  constructor
  · intro sf hsf c hc
    have hP := brun_invariant
      (fun st => ∀ c2, st.baccepted = some c2 → ipMatch ips c2 target = true)
      (fun t s evs t2 s2 hb hP c2 hc2 => by
        rcases bstep_accepted_step hb with heq | ⟨c3, hm3, heq⟩
        · exact hP c2 (heq ▸ hc2)
        · rw [heq] at hc2
          injection hc2 with hc3
          exact hc3 ▸ hm3)
      (fun s hP => hP) _ _ _ sf hsf (fun c2 hc2 => Option.noConfusion hc2)
    exact ipMatch_iff.mp (hP c hc)
  · intro hT sf hsf
    exact brun_invariant
      (fun st => st.baccepted = none ∧ ∀ n ∈ st.bvisited, n ∈ st.brejected)
      (fun t s evs t2 s2 hb hP => bstep_rejected_step hT hb hP)
      (fun s hP => hP) _ _ _ sf hsf ⟨rfl, fun n hn => absurd hn (List.not_mem_nil n)⟩

/-- C10 witness: the theorem applied to the chain with an empty IP
table (so the target IP is unassigned) and a lossless run. -/
theorem broadcast_accept_requires_ip_witness :
    getIp [] "N1" = "" ∧
    ∀ sf, start_broadcast gChain [] 0 (fun _ => 1) "N1" "N1" = some sf →
      sf.baccepted = none ∧ ∀ n ∈ sf.bvisited, n ∈ sf.brejected :=
  ⟨rfl, (broadcast_accept_requires_ip gChain [] 0 (fun _ => 1) "N1" "N1").2 rfl⟩

/-- C1 amended: the accepted node, whenever set, is a node whose
(non-empty) IP equals the target node's (non-empty) IP, and once set it
remains set for the rest of the run; but a later IP match overwrites it
— the last successfully-received matching node wins, not the first (see
the counterexample). -/
theorem broadcast_accepted_last_match (g : Graph) (ips : List (String × String))
    (rate : ℚ) (u : Nat → ℚ) (target : String) :
    (∀ fuel t s sf, brun g ips rate u target fuel t s = some sf →
      s.baccepted = none →
      ∀ c, sf.baccepted = some c →
        getIp ips c ≠ "" ∧ getIp ips target ≠ "" ∧ getIp ips c = getIp ips target) ∧
    (∀ fuel t s sf, brun g ips rate u target fuel t s = some sf →
      s.baccepted.isSome = true → sf.baccepted.isSome = true) ∧
    (∀ t s evs t2 s2 c, bstep g ips rate u target t s = .next evs t2 s2 →
      s.baccepted = some c → s2.baccepted = some c ∨
        ∃ c2, ipMatch ips c2 target = true ∧ s2.baccepted = some c2) := by
  refine ⟨?_, ?_, ?_⟩
  · intro fuel t s sf hrun hnone c hc
    have hP := brun_invariant
      (fun st => ∀ c2, st.baccepted = some c2 → ipMatch ips c2 target = true)
      (fun t s evs t2 s2 hb hP c2 hc2 => by
        rcases bstep_accepted_step hb with heq | ⟨c3, hm3, heq⟩
        · exact hP c2 (heq ▸ hc2)
        · rw [heq] at hc2
          injection hc2 with hc3
          exact hc3 ▸ hm3)
      (fun s hP => hP) fuel t s sf hrun
      (fun c2 hc2 => by rw [hnone] at hc2; exact Option.noConfusion hc2)
    exact ipMatch_iff.mp (hP c hc)
  · intro fuel t s sf hrun hsome
    exact brun_invariant (fun st => st.baccepted.isSome = true)
      (fun t s evs t2 s2 hb hP => bstep_accepted_isSome_step hb hP)
      (fun s hP => hP) fuel t s sf hrun hsome
  · intro t s evs t2 s2 c hb hc
    rcases bstep_accepted_step hb with heq | ⟨c2, hm2, heq⟩
    · exact Or.inl (heq ▸ hc)
    · exact Or.inr ⟨c2, hm2, heq⟩

/-- C1 amended witness: the duplicate-IP run of the counterexample,
through the amended theorem: its final accepted node `N3` indeed carries
an IP equal to the target's. -/
theorem broadcast_accepted_last_match_witness :
    (start_broadcast gDupIp ipsDupIp 0 (fun _ => 1) "N1" "N2" =
      some { animating := false, visited := ["N1", "N2", "N3"], bvisited := ["N2", "N3"],
             brejected := [], baccepted := some "N3", k := 2 }) ∧
    (getIp ipsDupIp "N3" ≠ "" ∧ getIp ipsDupIp "N2" ≠ "" ∧
      getIp ipsDupIp "N3" = getIp ipsDupIp "N2") :=
  ⟨by decide,
   (broadcast_accepted_last_match gDupIp ipsDupIp 0 (fun _ => 1) "N2").1
     (2 * gDupIp.nodes.length + 2) (.expand "N1")
     { animating := true, visited := ["N1"], bvisited := [], brejected := [],
       baccepted := none, k := 0 }
     { animating := false, visited := ["N1", "N2", "N3"], bvisited := ["N2", "N3"],
       brejected := [], baccepted := some "N3", k := 2 }
     (by decide) rfl "N3" rfl⟩

/-- C3 amended: when the single-hop loss trial drops the packet at a
neighbor, that neighbor joins `rejected` and the reported visited set is
untouched; the remaining neighbors of the discovering frontier node are
then attempted (each exactly once, in list order), and when the lost
neighbor was the last one, expansion continues from the lost node
itself.  A node discovered once stays in the traversal visited set
forever (the set is monotone), and every transmission attempt targets a
node not yet in that set — so a lost node is never re-attempted via any
path, rather than "retried only if reached again via a different path". -/
theorem broadcast_loss_semantics_amended (g : Graph) (ips : List (String × String))
    (rate : ℚ) (u : Nat → ℚ) (target : String) :
    (∀ prev cur s, s.animating = true → u s.k < rate →
      bstep g ips rate u target (.arrive prev cur []) s =
        .next [.nodeLost cur] (.expand cur)
          { s with brejected := addSet s.brejected cur, k := s.k + 1 }) ∧
    (∀ prev cur n rest s, s.animating = true → u s.k < rate →
      bstep g ips rate u target (.arrive prev cur (n :: rest)) s =
        .next [.nodeLost cur] (.arrive prev n rest)
          { s with visited := addSet s.visited n,
                   brejected := addSet s.brejected cur, k := s.k + 1 }) ∧
    (∀ t s evs t2 s2, bstep g ips rate u target t s = .next evs t2 s2 →
      s.visited ⊆ s2.visited) ∧
    (∀ t s evs p2 c2 rem2 s2, bInv g t s →
      bstep g ips rate u target t s = .next evs (.arrive p2 c2 rem2) s2 →
      c2 ∉ s.visited ∧ c2 ∈ s2.visited) := by
  refine ⟨?_, ?_, ?_, ?_⟩
  · intro prev cur s ha hd
    simp only [bstep]
    rw [if_neg (by simp [ha]), if_pos hd]
  · intro prev cur n rest s ha hd
    simp only [bstep]
    rw [if_neg (by simp [ha]), if_pos hd]
  · intro t s evs t2 s2 hb
    rcases (bstep_next_cases hb).2 with
      ⟨cur, n, rest, ht, hn, ht2, hs2⟩ |
      ⟨prev, cur, n, rest, ht, hd, ht2, hs2⟩ |
      ⟨prev, cur, ht, hd, ht2, hs2⟩ |
      ⟨prev, cur, n, rest, ht, hd, hip, ht2, hs2⟩ |
      ⟨prev, cur, ht, hd, hip, ht2, hs2⟩ |
      ⟨prev, cur, n, rest, ht, hd, hip, ht2, hs2⟩ |
      ⟨prev, cur, ht, hd, hip, ht2, hs2⟩ <;> subst hs2 <;>
      first
        | exact subset_addSet _ _
        | exact List.Subset.refl _
  · intro t s evs p2 c2 rem2 s2 hinv hb
    rcases (bstep_next_cases hb).2 with
      ⟨cur, n, rest, ht, hn, ht2, hs2⟩ |
      ⟨prev, cur, n, rest, ht, hd, ht2, hs2⟩ |
      ⟨prev, cur, ht, hd, ht2, hs2⟩ |
      ⟨prev, cur, n, rest, ht, hd, hip, ht2, hs2⟩ |
      ⟨prev, cur, ht, hd, hip, ht2, hs2⟩ |
      ⟨prev, cur, n, rest, ht, hd, hip, ht2, hs2⟩ |
      ⟨prev, cur, ht, hd, hip, ht2, hs2⟩
    · injection ht2 with hp hc hr
      subst hp hc hr hs2 ht
      have hmem : c2 ∈ unvisitedNeighbors g s.visited p2 := by
        rw [hn]
        exact List.mem_cons_self c2 rem2
      exact ⟨(mem_unvisitedNeighbors hmem).2, mem_addSet_self _ _⟩
    · injection ht2 with hp hc hr
      subst hp hc hr hs2 ht
      obtain ⟨hnd, hall⟩ := hinv
      exact ⟨(hall c2 (List.mem_cons_self c2 rem2)).2, mem_addSet_self _ _⟩
    · exact BTask.noConfusion ht2
    · injection ht2 with hp hc hr
      subst hp hc hr hs2 ht
      obtain ⟨hnd, hall⟩ := hinv
      exact ⟨(hall c2 (List.mem_cons_self c2 rem2)).2, mem_addSet_self _ _⟩
    · exact BTask.noConfusion ht2
    · injection ht2 with hp hc hr
      subst hp hc hr hs2 ht
      obtain ⟨hnd, hall⟩ := hinv
      exact ⟨(hall c2 (List.mem_cons_self c2 rem2)).2, mem_addSet_self _ _⟩
    · exact BTask.noConfusion ht2

/-- C3 amended witness: the drop step applied at a concrete animating
state with a dropping draw. -/
theorem broadcast_loss_semantics_witness :
    ({ animating := true, visited := ["N1", "N2"], bvisited := [], brejected := [],
       baccepted := none, k := 0 } : BCast).animating = true ∧
    ((fun _ => (0 : ℚ)) 0 < half) ∧
    bstep gChain [] half (fun _ => 0) "N1" (.arrive "N1" "N2" [])
      { animating := true, visited := ["N1", "N2"], bvisited := [], brejected := [],
        baccepted := none, k := 0 } =
      .next [.nodeLost "N2"] (.expand "N2")
        { animating := true, visited := ["N1", "N2"], bvisited := [],
          brejected := ["N2"], baccepted := none, k := 1 } :=
  ⟨rfl, by decide,
   (broadcast_loss_semantics_amended gChain [] half (fun _ => 0) "N1").1 "N1" "N2"
     { animating := true, visited := ["N1", "N2"], bvisited := [], brejected := [],
       baccepted := none, k := 0 } rfl (by decide)⟩

/-! ### Unicast run characterization -/

theorem animate_smooth_step_eq (rate : ℚ) (u : Nat → ℚ) (path : List String) (j k : Nat) :
    animate_smooth_step rate u { animating := true, path := path, edgeIdx := j, k := k } =
      (if path.length ≤ j + 1 then
        (if u k < rate then UOut.done (.lostAtDest (path.getLastD ""))
         else UOut.done (.delivered (path.getLastD "")))
      else if 0 < j ∧ u k < rate then
        UOut.done (.lostAtHop (path.getD j "") j (path.length - 1))
      else
        UOut.next (.hopProgress (j + 1) (path.getD j "") (path.getD (j + 1) ""))
          { animating := true, path := path, edgeIdx := j + 1,
            k := k + (if 0 < j then 1 else 0) }) := rfl

/-- From edge `j` (with `j - 1` draws consumed), if the first dropping
hop-entry trial is at hop `i0`, the run terminates lost at `path[i0]`,
hop `i0` of `n`. -/
theorem animate_smooth_run_drop (rate : ℚ) (u : Nat → ℚ) (path : List String) (n : Nat)
    (hlen : path.length = n + 1) (i0 : Nat) (h1 : 1 ≤ i0) (h2 : i0 < n)
    (hdrop : u (i0 - 1) < rate)
    (hsafe : ∀ i, 1 ≤ i → i < i0 → ¬ u (i - 1) < rate) :
    ∀ fuel j, j ≤ i0 → i0 - j < fuel →
      animate_smooth_run rate u fuel
        { animating := true, path := path, edgeIdx := j, k := j - 1 } =
        some (.lostAtHop (path.getD i0 "") i0 n) := by
  intro fuel
  induction fuel with
  | zero =>
    intro j hj hf
    exact absurd hf (Nat.not_lt_zero _)
  | succ f ih =>
    intro j hj hf
    simp only [animate_smooth_run, animate_smooth_step_eq]
    have hterm : ¬ path.length ≤ j + 1 := by
      rw [hlen]
      omega
    rw [if_neg hterm]
    by_cases hji : j = i0
    · subst hji
      rw [if_pos ⟨h1, hdrop⟩, hlen]
      rfl
    · have hjlt : j < i0 := lt_of_le_of_ne hj hji
      have hcond : ¬ (0 < j ∧ u (j - 1) < rate) := by
        rintro ⟨hj0, hd⟩
        exact hsafe j hj0 hjlt hd
      rw [if_neg hcond]
      have hkeq : (j - 1) + (if 0 < j then 1 else 0) = (j + 1) - 1 := by
        by_cases h0 : 0 < j
        · rw [if_pos h0]
          omega
        · rw [if_neg h0]
          omega
      rw [hkeq]
      exact ih (j + 1) hjlt (by omega)

/-- From edge `j`, if no hop-entry trial from `j` on drops, the run
reaches the destination and the final trial (draw `n - 1`) decides
between loss-at-destination and delivery. -/
theorem animate_smooth_run_toDest (rate : ℚ) (u : Nat → ℚ) (path : List String) (n : Nat)
    (hlen : path.length = n + 1)
    (hsafe : ∀ i, 1 ≤ i → i < n → ¬ u (i - 1) < rate) :
    ∀ fuel j, j ≤ n → n - j < fuel →
      animate_smooth_run rate u fuel
        { animating := true, path := path, edgeIdx := j, k := j - 1 } =
        some (if u (n - 1) < rate then UTerm.lostAtDest (path.getLastD "")
              else UTerm.delivered (path.getLastD "")) := by
  intro fuel
  induction fuel with
  | zero =>
    intro j hj hf
    exact absurd hf (Nat.not_lt_zero _)
  | succ f ih =>
    intro j hj hf
    simp only [animate_smooth_run, animate_smooth_step_eq]
    by_cases hjn : j = n
    · subst hjn
      rw [if_pos (by rw [hlen])]
      by_cases hu : u (j - 1) < rate
      · rw [if_pos hu, if_pos hu]
      · rw [if_neg hu, if_neg hu]
    · have hjlt : j < n := lt_of_le_of_ne hj hjn
      have hterm : ¬ path.length ≤ j + 1 := by
        rw [hlen]
        omega
      rw [if_neg hterm]
      have hcond : ¬ (0 < j ∧ u (j - 1) < rate) := by
        rintro ⟨hj0, hd⟩
        exact hsafe j hj0 hjlt hd
      rw [if_neg hcond]
      have hkeq : (j - 1) + (if 0 < j then 1 else 0) = (j + 1) - 1 := by
        by_cases h0 : 0 < j
        · rw [if_pos h0]
          omega
        · rw [if_neg h0]
          omega
      rw [hkeq]
      exact ih (j + 1) hjlt (by omega)

/-- C4: the unicast loss discipline.  Along a path of `n` hops, a loss
trial is drawn before advancing past hop `i` exactly for `0 < i < n`
(no trial at the departure from the source), using draw `i - 1`, plus
one final trial (draw `n - 1`) at the destination: the first dropping
hop-entry trial at hop `i0` ends the run lost at `path[i0]` with hop
number `i0` of `n`; surviving every hop-entry trial, a dropping final
trial ends it lost at the destination; surviving all trials delivers. -/
theorem unicast_loss_discipline (rate : ℚ) (u : Nat → ℚ) (path : List String) (n : Nat)
    (hlen : path.length = n + 1) :
    (∀ i0, 1 ≤ i0 → i0 < n → u (i0 - 1) < rate →
      (∀ i, 1 ≤ i → i < i0 → ¬ u (i - 1) < rate) →
      start_unicast rate u path = some (.lostAtHop (path.getD i0 "") i0 n)) ∧
    ((∀ i, 1 ≤ i → i < n → ¬ u (i - 1) < rate) → u (n - 1) < rate →
      start_unicast rate u path = some (.lostAtDest (path.getLastD ""))) ∧
    ((∀ i, 1 ≤ i → i < n → ¬ u (i - 1) < rate) → ¬ u (n - 1) < rate →
      start_unicast rate u path = some (.delivered (path.getLastD ""))) := by
  refine ⟨?_, ?_, ?_⟩
  · intro i0 h1 h2 hdrop hsafe
    have := animate_smooth_run_drop rate u path n hlen i0 h1 h2 hdrop hsafe
      (path.length + 1) 0 (by omega) (by omega)
    exact this
  · intro hsafe hdest
    have := animate_smooth_run_toDest rate u path n hlen hsafe
      (path.length + 1) 0 (by omega) (by omega)
    rw [if_pos hdest] at this
    exact this
  · intro hsafe hdest
    have := animate_smooth_run_toDest rate u path n hlen hsafe
      (path.length + 1) 0 (by omega) (by omega)
    rw [if_neg hdest] at this
    exact this

/-- C4 witness: with draws `(1/2, 0, 0, ...)` at rate `1/2` on the
2-hop chain path, the hop-1 entry trial survives and the destination
trial drops. -/
theorem unicast_loss_discipline_witness :
    ¬ (fun m => if m = 0 then half else (0 : ℚ)) 0 < half ∧
    (fun m => if m = 0 then half else (0 : ℚ)) 1 < half ∧
    start_unicast half (fun m => if m = 0 then half else (0 : ℚ)) ["N1", "N2", "N3"] =
      some (.lostAtDest "N3") := by
  refine ⟨by decide, by decide, ?_⟩
  exact (unicast_loss_discipline half (fun m => if m = 0 then half else (0 : ℚ))
    ["N1", "N2", "N3"] 2 rfl).2.1 (fun i hi1 hi2 => by
      have : i = 1 := by omega
      subst this
      decide) (by decide)

/-- C5: at `lossRate = 0` every unicast run (every draw in `[0, 1)`)
delivers; at `lossRate = 1.0` every run with at least one hop is lost at
the first checked boundary of the hop-entry rule: at the destination for
a single-hop path, at hop 1 otherwise. -/
theorem unicast_extreme_rates (u : Nat → ℚ) (hu : ∀ m, 0 ≤ u m ∧ u m < 1) :
    (∀ path (n : Nat), path.length = n + 1 →
      start_unicast 0 u path = some (.delivered (path.getLastD ""))) ∧
    (∀ path (n : Nat), path.length = n + 2 →
      start_unicast 1 u path =
        some (if n = 0 then UTerm.lostAtDest (path.getLastD "")
              else UTerm.lostAtHop (path.getD 1 "") 1 (n + 1))) := by
  constructor
  · intro path n hlen
    exact (unicast_loss_discipline 0 u path n hlen).2.2
      (fun i h1 h2 hd => absurd hd (not_lt.mpr (hu (i - 1)).1))
      (not_lt.mpr (hu (n - 1)).1)
  · intro path n hlen
    by_cases hn : n = 0
    · subst hn
      rw [if_pos rfl]
      exact (unicast_loss_discipline 1 u path 1 hlen).2.1
        (fun i h1 h2 => absurd h2 (by omega)) (hu 0).2
    · rw [if_neg hn]
      exact (unicast_loss_discipline 1 u path (n + 1) hlen).1 1 (le_refl 1) (by omega)
        (hu 0).2 (fun i h1 h2 => absurd h2 (by omega))

theorem half_nonneg : (0 : ℚ) ≤ half := by decide

theorem half_lt_one : half < 1 := by decide

/-- C5 witness: the extreme-rate theorem applied with the constant draw
`1/2` to a single-node path (rate 0) and a one-hop path (rate 1). -/
theorem unicast_extreme_rates_witness :
    (0 ≤ half ∧ half < 1) ∧
    start_unicast 0 (fun _ => half) ["N1"] = some (.delivered "N1") ∧
    start_unicast 1 (fun _ => half) ["N1", "N2"] = some (.lostAtDest "N2") :=
  ⟨⟨half_nonneg, half_lt_one⟩,
   (unicast_extreme_rates (fun _ => half) (fun _ => ⟨half_nonneg, half_lt_one⟩)).1 ["N1"] 0 rfl,
   (unicast_extreme_rates (fun _ => half) (fun _ => ⟨half_nonneg, half_lt_one⟩)).2 ["N1", "N2"] 0 rfl⟩

/-! ### Path Resolver correctness (BFS) -/

theorem hasPathLen_zero {g : Graph} {a b : String} (h : hasPathLen g a b 0) : a = b := by
  cases h
  rfl

theorem hasPathLen_snoc {g : Graph} {a b c : String} {n : Nat}
    (h : hasPathLen g a b n) (hadj : g.adj b c = true) : hasPathLen g a c (n + 1) := by
  induction h with
  | refl u => exact hasPathLen.step hadj (hasPathLen.refl c)
  | step hadj2 hp ih => exact hasPathLen.step hadj2 (ih hadj)

theorem hasPathLen_snoc_inv {g : Graph} {a c : String} :
    ∀ {n : Nat}, hasPathLen g a c (n + 1) → ∃ b, hasPathLen g a b n ∧ g.adj b c = true := by
  intro n
  induction n generalizing a with
  | zero =>
    intro h
    cases h with
    | step hadj hp =>
      cases hp
      exact ⟨a, hasPathLen.refl a, hadj⟩
  | succ m ih =>
    intro h
    cases h with
    | step hadj hp =>
      obtain ⟨b, hwb, hbc⟩ := ih hp
      exact ⟨b, hasPathLen.step hadj hwb, hbc⟩

theorem adj_mem_right {g : Graph} (hwf : g.wellformed) {a w : String}
    (h : g.adj a w = true) : w ∈ g.nodes := by
  unfold Graph.adj at h
  rw [List.any_eq_true] at h
  obtain ⟨e, he, hcase⟩ := h
  rw [Bool.or_eq_true, Bool.and_eq_true, Bool.and_eq_true] at hcase
  rcases hcase with ⟨h1, h2⟩ | ⟨h1, h2⟩
  · rw [beq_iff_eq] at h2
    exact h2 ▸ (hwf.2 e he).2.1
  · rw [beq_iff_eq] at h1
    exact h1 ▸ (hwf.2 e he).1

theorem hasPathLen_mem {g : Graph} (hwf : g.wellformed) {a b : String} {n : Nat}
    (ha : a ∈ g.nodes) (h : hasPathLen g a b n) : b ∈ g.nodes := by
  induction h with
  | refl u => exact ha
  | step hadj hp ih => exact ih (adj_mem_right hwf hadj)

theorem exists_shortestDist {g : Graph} {s v : String} :
    ∀ j, hasPathLen g s v j → ∃ d, shortestDist g s v d := by
  intro j
  induction j using Nat.strong_induction_on with
  | _ j ih =>
    intro hj
    by_cases hex : ∃ i, i < j ∧ hasPathLen g s v i
    · obtain ⟨i, hij, hi⟩ := hex
      exact ih i hij hi
    · exact ⟨j, hj, fun i hij hi => hex ⟨i, hij, hi⟩⟩

theorem shortestDist_le {g : Graph} {s v : String} {d j : Nat}
    (hd : shortestDist g s v d) (hj : hasPathLen g s v j) : d ≤ j := by
  by_contra hlt
  exact hd.2 j (by omega) hj

theorem shortestDist_unique {g : Graph} {s v : String} {d d2 : Nat}
    (h1 : shortestDist g s v d) (h2 : shortestDist g s v d2) : d = d2 :=
  Nat.le_antisymm (shortestDist_le h1 h2.1) (shortestDist_le h2 h1.1)

theorem mem_nextLayer {g : Graph} {seen frontier : List String} {v : String} :
    v ∈ nextLayer g seen frontier ↔
      v ∈ g.nodes ∧ v ∉ seen ∧ ∃ w, w ∈ frontier ∧ g.adj w v = true := by
  unfold nextLayer
  rw [List.mem_filter, Bool.and_eq_true, decide_eq_true_eq, List.any_eq_true]

theorem layerAt_zero (g : Graph) (src : String) : layerAt g src 0 = [src] := rfl

theorem seenAt_zero (g : Graph) (src : String) : seenAt g src 0 = [src] := rfl

theorem layerAt_succ (g : Graph) (src : String) (r : Nat) :
    layerAt g src (r + 1) = nextLayer g (seenAt g src r) (layerAt g src r) := rfl

theorem seenAt_succ (g : Graph) (src : String) (r : Nat) :
    seenAt g src (r + 1) = seenAt g src r ++ layerAt g src (r + 1) := rfl

/-- The BFS layer/seen characterization: after `r` rounds, `seen` holds
exactly the nodes at hop distance at most `r`, and layer `r` holds
exactly the nodes at shortest distance exactly `r`. -/
theorem bfs_main {g : Graph} {src : String} (hwf : g.wellformed) (hsrc : src ∈ g.nodes) :
    ∀ r, (∀ v, v ∈ seenAt g src r ↔ ∃ j, j ≤ r ∧ hasPathLen g src v j) ∧
         (∀ v, v ∈ layerAt g src r ↔ shortestDist g src v r) := by
  intro r
  induction r with
  | zero =>
    constructor
    · intro v
      constructor
      · intro hv
        rw [seenAt_zero, List.mem_singleton] at hv
        subst hv
        exact ⟨0, le_refl 0, hasPathLen.refl v⟩
      · rintro ⟨j, hj, hp⟩
        rw [Nat.le_zero] at hj
        subst hj
        rw [seenAt_zero, List.mem_singleton]
        exact (hasPathLen_zero hp).symm
    · intro v
      constructor
      · intro hv
        rw [layerAt_zero, List.mem_singleton] at hv
        subst hv
        exact ⟨hasPathLen.refl v, fun j hj _ => absurd hj (Nat.not_lt_zero j)⟩
      · rintro ⟨hp, _⟩
        rw [layerAt_zero, List.mem_singleton]
        exact (hasPathLen_zero hp).symm
  | succ r ih =>
    obtain ⟨ihS, ihL⟩ := ih
    have hlayer : ∀ v, v ∈ layerAt g src (r + 1) ↔ shortestDist g src v (r + 1) := by
      intro v
      rw [layerAt_succ, mem_nextLayer]
      constructor
      · rintro ⟨hvn, hvs, w, hw, hadj⟩
        have hsp := (ihL w).mp hw
        refine ⟨hasPathLen_snoc hsp.1 hadj, ?_⟩
        intro j hj hp
        exact hvs ((ihS v).mpr ⟨j, by omega, hp⟩)
      · rintro ⟨hp, hmin⟩
        obtain ⟨w, hw, hadj⟩ := hasPathLen_snoc_inv hp
        obtain ⟨d, hd⟩ := exists_shortestDist r hw
        have hdr : d ≤ r := shortestDist_le hd hw
        have hdeq : d = r := by
          by_contra hne
          exact hmin (d + 1) (by omega) (hasPathLen_snoc hd.1 hadj)
        subst hdeq
        refine ⟨hasPathLen_mem hwf hsrc hp, ?_, w, (ihL w).mpr hd, hadj⟩
        intro hvs
        obtain ⟨j, hj, hpj⟩ := (ihS v).mp hvs
        exact hmin j (by omega) hpj
    refine ⟨?_, hlayer⟩
    intro v
    rw [seenAt_succ, List.mem_append]
    constructor
    · rintro (hv | hv)
      · obtain ⟨j, hj, hp⟩ := (ihS v).mp hv
        exact ⟨j, by omega, hp⟩
      · exact ⟨r + 1, le_refl _, ((hlayer v).mp hv).1⟩
    · rintro ⟨j, hj, hp⟩
      obtain ⟨d, hd⟩ := exists_shortestDist j hp
      have hdj : d ≤ j := shortestDist_le hd hp
      by_cases hdr : d ≤ r
      · exact Or.inl ((ihS v).mpr ⟨d, hdr, hd.1⟩)
      · have : d = r + 1 := by omega
        exact Or.inr ((hlayer v).mpr (this ▸ hd))

theorem shortestDist_chain {g : Graph} {src : String} :
    ∀ d, (∃ v, shortestDist g src v d) → ∀ j, j ≤ d → ∃ w, shortestDist g src w j := by
  intro d
  induction d with
  | zero =>
    intro h j hj
    rw [Nat.le_zero] at hj
    subst hj
    exact h
  | succ d ih =>
    intro h j hj
    obtain ⟨v, hv⟩ := h
    obtain ⟨w, hw, hadj⟩ := hasPathLen_snoc_inv hv.1
    obtain ⟨d0, hd0⟩ := exists_shortestDist d hw
    have hd0d : d0 = d := by
      by_contra hne
      have hlt : d0 < d := lt_of_le_of_ne (shortestDist_le hd0 hw) hne
      exact hv.2 (d0 + 1) (by omega) (hasPathLen_snoc hd0.1 hadj)
    subst hd0d
    by_cases hjd : j ≤ d0
    · exact ih ⟨w, hd0⟩ j hjd
    · have hje : j = d0 + 1 := by omega
      exact hje ▸ ⟨v, hv⟩

theorem seenAt_subset {g : Graph} {src : String} (hsrc : src ∈ g.nodes) :
    ∀ r, seenAt g src r ⊆ g.nodes := by
  intro r
  induction r with
  | zero =>
    rw [seenAt_zero]
    intro a ha
    rw [List.mem_singleton] at ha
    exact ha ▸ hsrc
  | succ r ih =>
    rw [seenAt_succ]
    intro a ha
    rcases List.mem_append.mp ha with h1 | h2
    · exact ih h1
    · exact (mem_nextLayer.mp h2).1

theorem seenAt_nodup {g : Graph} {src : String} (hnd : g.nodes.Nodup) :
    ∀ r, (seenAt g src r).Nodup := by
  intro r
  induction r with
  | zero =>
    rw [seenAt_zero]
    exact List.nodup_singleton src
  | succ r ih =>
    rw [seenAt_succ]
    refine List.Nodup.append ih ((hnd.filter _)) ?_
    intro a ha hal
    exact (mem_nextLayer.mp hal).2.1 ha

theorem seenAt_length_ge {g : Graph} {src : String} :
    ∀ r, (∀ j, 1 ≤ j → j ≤ r → layerAt g src j ≠ []) →
      r + 1 ≤ (seenAt g src r).length := by
  intro r
  induction r with
  | zero =>
    intro _
    rw [seenAt_zero]
    exact le_refl 1
  | succ r ih =>
    intro hne
    rw [seenAt_succ, List.length_append]
    have h1 : r + 1 ≤ (seenAt g src r).length :=
      ih (fun j hj1 hj2 => hne j hj1 (by omega))
    have h2 : 1 ≤ (layerAt g src (r + 1)).length := by
      have := hne (r + 1) (by omega) (le_refl _)
      cases hl : layerAt g src (r + 1) with
      | nil => exact absurd hl this
      | cons a l => simp
    omega

theorem nodup_subset_length {l1 l2 : List String} (hnd : l1.Nodup) (hsub : l1 ⊆ l2) :
    l1.length ≤ l2.length := by
  calc l1.length = l1.toFinset.card := (List.toFinset_card_of_nodup hnd).symm
    _ ≤ l2.toFinset.card := Finset.card_le_card (fun a ha =>
        List.mem_toFinset.mpr (hsub (List.mem_toFinset.mp ha)))
    _ ≤ l2.length := List.toFinset_card_le l2

theorem shortestDist_lt_bound {g : Graph} {src v : String} {d : Nat}
    (hwf : g.wellformed) (hsrc : src ∈ g.nodes) (h : shortestDist g src v d) :
    d < g.nodes.length + 1 := by
  have hlayers : ∀ j, 1 ≤ j → j ≤ d → layerAt g src j ≠ [] := by
    intro j hj1 hj2 hempty
    obtain ⟨w, hw⟩ := shortestDist_chain d ⟨v, h⟩ j hj2
    have hmem : w ∈ layerAt g src j := ((bfs_main hwf hsrc j).2 w).mpr hw
    rw [hempty] at hmem
    exact List.not_mem_nil w hmem
  have h1 : d + 1 ≤ (seenAt g src d).length := seenAt_length_ge d hlayers
  have h2 : (seenAt g src d).length ≤ g.nodes.length :=
    nodup_subset_length (seenAt_nodup hwf.1 d) (seenAt_subset hsrc d)
  omega

theorem findLevel_some_mem {g : Graph} {src dst : String} {r : Nat}
    (h : findLevel g src dst = some r) : dst ∈ layerAt g src r := by
  have := List.find?_some h
  exact of_decide_eq_true this

theorem findLevel_none_no_path {g : Graph} {src dst : String}
    (hwf : g.wellformed) (hsrc : src ∈ g.nodes) (h : findLevel g src dst = none) :
    ¬ ∃ j, hasPathLen g src dst j := by
  rintro ⟨j, hj⟩
  obtain ⟨d, hd⟩ := exists_shortestDist j hj
  have hdl : d < g.nodes.length + 1 := shortestDist_lt_bound hwf hsrc hd
  have hmem : dst ∈ layerAt g src d := ((bfs_main hwf hsrc d).2 dst).mpr hd
  have hnone := List.find?_eq_none.mp h d (List.mem_range.mpr hdl)
  exact hnone (decide_eq_true hmem)

theorem backPath_spec {g : Graph} {src : String} :
    ∀ r v, v ∈ layerAt g src r →
      (backPath g src r v).length = r + 1 ∧
      (backPath g src r v).head? = some src ∧
      (backPath g src r v).getLast? = some v ∧
      List.Chain' (fun a b => g.adj a b = true) (backPath g src r v) := by
  intro r
  induction r with
  | zero =>
    intro v hv
    rw [layerAt_zero, List.mem_singleton] at hv
    refine ⟨rfl, ?_, rfl, List.chain'_singleton v⟩
    show some v = some src
    rw [hv]
  | succ r ih =>
    intro v hv
    rw [layerAt_succ] at hv
    obtain ⟨hvn, hvs, w, hw, hadj⟩ := mem_nextLayer.mp hv
    have hfind : ((layerAt g src r).find? (fun u => g.adj u v)).isSome := by
      rw [List.find?_isSome]
      exact ⟨w, hw, hadj⟩
    obtain ⟨u0, hu0⟩ := Option.isSome_iff_exists.mp hfind
    have hu0mem : u0 ∈ layerAt g src r := List.mem_of_find?_eq_some hu0
    have hu0adj : g.adj u0 v = true := by simpa using List.find?_some hu0
    obtain ⟨ihl, ihh, ihlast, ihch⟩ := ih u0 hu0mem
    have hbp : backPath g src (r + 1) v = backPath g src r u0 ++ [v] := by
      simp only [backPath]
      rw [hu0]
    rw [hbp]
    refine ⟨?_, ?_, ?_, ?_⟩
    · rw [List.length_append, ihl]
      rfl
    · cases hb : backPath g src r u0 with
      | nil =>
        rw [hb] at ihl
        simp at ihl
      | cons a l =>
        rw [hb] at ihh
        rw [List.cons_append]
        simpa using ihh
    · exact List.getLast?_concat _
    · rw [List.chain'_append]
      refine ⟨ihch, List.chain'_singleton v, ?_⟩
      intro x hx y hy
      rw [ihlast, Option.mem_some_iff] at hx
      simp only [List.head?_cons, Option.mem_some_iff] at hy
      subst hx hy
      exact hu0adj

/-- C6: path resolution.  On a wellformed snapshot, a resolved path
starts at the source, ends at the destination, steps only along edges of
the snapshot, and its length is the true shortest-hop-distance plus one;
resolution fails (`NoPathError`) exactly when no walk of any length
connects the two; and `start_animation` rejects an absent identifier
with `InvalidNodeError`, and a failed resolution with the path error,
both without starting a run (state unchanged). -/
theorem resolve_path_spec (g : Graph) (src dst : String) (hwf : g.wellformed) :
    (src ∈ g.nodes → ∀ p, shortest_path g src dst = some p →
      p.head? = some src ∧ p.getLast? = some dst ∧
      List.Chain' (fun a b => g.adj a b = true) p ∧
      ∃ d, shortestDist g src dst d ∧ p.length = d + 1) ∧
    (src ∈ g.nodes → (shortest_path g src dst = none ↔ ¬ ∃ j, hasPathLen g src dst j)) ∧
    (∀ mode s, s.animating = false → src ≠ "" → dst ≠ "" →
      ¬ (src ∈ g.nodes ∧ dst ∈ g.nodes) →
      start_animation g mode src dst s = (.invalidNode, s)) ∧
    (∀ s, s.animating = false → src ≠ "" → dst ≠ "" → src ∈ g.nodes → dst ∈ g.nodes →
      shortest_path g src dst = none →
      start_animation g .unicast src dst s = (.noPath, s)) := by
  refine ⟨?_, ?_, ?_, ?_⟩
  · intro hsrc p hp
    unfold shortest_path at hp
    cases hlv : findLevel g src dst with
    | none =>
      rw [hlv] at hp
      exact Option.noConfusion hp
    | some r =>
      rw [hlv] at hp
      injection hp with hp2
      have hmem := findLevel_some_mem hlv
      obtain ⟨hl, hh, hlast, hch⟩ := backPath_spec r dst hmem
      subst hp2
      exact ⟨hh, hlast, hch, r, ((bfs_main hwf hsrc r).2 dst).mp hmem, hl⟩
  · intro hsrc
    constructor
    · intro hnone
      unfold shortest_path at hnone
      cases hlv : findLevel g src dst with
      | none => exact findLevel_none_no_path hwf hsrc hlv
      | some r =>
        rw [hlv] at hnone
        exact Option.noConfusion hnone
    · intro hno
      unfold shortest_path
      cases hlv : findLevel g src dst with
      | none => rfl
      | some r =>
        have hmem := findLevel_some_mem hlv
        have hsp := ((bfs_main hwf hsrc r).2 dst).mp hmem
        exact absurd ⟨r, hsp.1⟩ hno
  · intro mode s ha hs hd hmem
    unfold start_animation
    rw [if_neg (by simp [ha]), if_neg (not_or.mpr ⟨hs, hd⟩), if_pos hmem]
  · intro s ha hs hd hsrcm hdstm hnone
    unfold start_animation
    rw [if_neg (by simp [ha]), if_neg (not_or.mpr ⟨hs, hd⟩),
      if_neg (fun hc => hc ⟨hsrcm, hdstm⟩)]
    show (match shortest_path g src dst with
      | none => (StartOutcome.noPath, s)
      | some p => (StartOutcome.unicastStarted p, { s with animating := true })) = _
    rw [hnone]

/-- C6 witness: the resolver theorem applied to the chain `N1-N2-N3`,
whose unique `N1`-to-`N3` path is `[N1, N2, N3]`. -/
theorem resolve_path_spec_witness :
    Graph.wellformed gChain ∧ "N1" ∈ gChain.nodes ∧
    shortest_path gChain "N1" "N3" = some ["N1", "N2", "N3"] ∧
    ((["N1", "N2", "N3"] : List String).head? = some "N1" ∧
     (["N1", "N2", "N3"] : List String).getLast? = some "N3" ∧
     List.Chain' (fun a b => gChain.adj a b = true) ["N1", "N2", "N3"] ∧
     ∃ d, shortestDist gChain "N1" "N3" d ∧
       (["N1", "N2", "N3"] : List String).length = d + 1) :=
  ⟨⟨by decide, by decide⟩, by decide, by decide,
   (resolve_path_spec gChain "N1" "N3" ⟨by decide, by decide⟩).1 (by decide)
     ["N1", "N2", "N3"] (by decide)⟩
